import Mathlib

set_option linter.unusedVariables false

/-!
# Verification of the coding-swarm git coordination core

Shallow embedding of `src/coding_swarm/sync.py` and `src/coding_swarm/monitor.py`.

The git substrate is modelled explicitly:
* a file tree is an association list from paths to file contents;
* a commit records its message and the full tree snapshot it introduces;
* a branch history is a list of commits, newest first;
* the shared bare upstream repository holds one branch history;
* a workspace holds a working tree, a local branch history and the
  remote-tracking ref (`origin/<branch>`, the history seen at the last fetch);
* `git push` is the atomic compare-and-swap on the upstream reference:
  it succeeds exactly when the upstream history is a suffix of (i.e. an
  ancestor of) the pushed local history, which is git's fast-forward rule.

The repository only ever works with the single branch it is given, so the
model keeps one branch per repository; `branch` arguments are threaded
through to mirror the Python signatures.
-/

namespace CodingSwarm

/-- A filesystem/tree path, relative to the repository root. -/
abbrev Path := String

/-- A file tree: association list from paths to file contents.
Directories are represented implicitly by the paths of the files they
contain (exactly as git tracks them). -/
abbrev FileMap := List (Path × String)

/-- Content of a file in a tree (`none` = file absent). -/
def fmGet : FileMap → Path → Option String
  | [], _ => none
  | (q, v) :: rest, p => if p = q then some v else fmGet rest p

/-- Write a file: replace the binding if the path is present, append otherwise. -/
def fmSet : FileMap → Path → String → FileMap
  | [], p, v => [(p, v)]
  | (q, w) :: rest, p, v => if p = q then (p, v) :: rest else (q, w) :: fmSet rest p v

/-- Delete a file (all bindings of the path). -/
def fmErase : FileMap → Path → FileMap
  | [], _ => []
  | (q, w) :: rest, p => if q = p then fmErase rest p else (q, w) :: fmErase rest p

/-- Write-or-delete, used when replaying a recorded change. -/
def fmSetOpt (m : FileMap) (p : Path) : Option String → FileMap
  | some v => fmSet m p v
  | none => fmErase m p

/-- The paths bound in a tree. -/
def fmKeys (m : FileMap) : List Path := m.map Prod.fst

/-- Extensional equality of two trees: same content at every path.
This is how git compares states (per-path content), independent of the
list representation. -/
def fmExtEq (a b : FileMap) : Bool :=
  (fmKeys a ++ fmKeys b).all (fun p => fmGet a p == fmGet b p)

/-- Paths whose content differs between two trees (the paths touched by a
diff between the snapshots). -/
def diffPaths (t₁ t₂ : FileMap) : List Path :=
  ((fmKeys t₁ ++ fmKeys t₂).dedup).filter (fun p => fmGet t₁ p != fmGet t₂ p)

@[simp] theorem fmGet_nil (p : Path) : fmGet [] p = none := rfl

theorem fmGet_set_self (m : FileMap) (p : Path) (v : String) :
    fmGet (fmSet m p v) p = some v := by
  induction m with
  | nil => simp [fmSet, fmGet]
  | cons e rest ih =>
    obtain ⟨q, w⟩ := e
    by_cases h : p = q
    · simp [fmSet, fmGet, h]
    · simp [fmSet, fmGet, h, ih]

theorem fmGet_set_ne (m : FileMap) (p q : Path) (v : String) (h : q ≠ p) :
    fmGet (fmSet m p v) q = fmGet m q := by
  induction m with
  | nil => simp [fmSet, fmGet, h]
  | cons e rest ih =>
    obtain ⟨r, w⟩ := e
    by_cases hpr : p = r
    · subst hpr
      simp [fmSet, fmGet, h]
    · by_cases hqr : q = r
      · simp [fmSet, fmGet, hpr, hqr]
      · simp [fmSet, fmGet, hpr, hqr, ih]

theorem fmGet_erase_self (m : FileMap) (p : Path) :
    fmGet (fmErase m p) p = none := by
  induction m with
  | nil => simp [fmErase, fmGet]
  | cons e rest ih =>
    obtain ⟨q, w⟩ := e
    by_cases h : q = p
    · simpa [fmErase, h] using ih
    · have h' : p ≠ q := fun hh => h hh.symm
      simp [fmErase, fmGet, h, h', ih]

theorem fmExtEq_refl (a : FileMap) : fmExtEq a a = true := by
  simp [fmExtEq, List.all_eq_true]

/-- A git commit: message plus the full tree snapshot it records.
Two commits made independently by different agents always differ in
message or tree, which is how the model reflects distinct commit objects. -/
structure Commit where
  msg : String
  tree : FileMap
  deriving DecidableEq, Repr

/-- Tree at the tip of a history (histories are newest-first). -/
def tipTree : List Commit → FileMap
  | [] => []
  | c :: _ => c.tree

/-- The shared bare upstream repository (`sync.py` works with a single
branch per repository, the one passed as `branch`). -/
structure Upstream where
  history : List Commit
  deriving DecidableEq, Repr

/-- A per-agent working copy: working tree, local branch history, and the
remote-tracking ref `origin/<branch>` as of the last fetch. -/
structure Workspace where
  worktree : FileMap
  history : List Commit
  originRef : List Commit
  deriving DecidableEq, Repr

/-- `clone_workspace` (sync.py lines 156-176): a fresh clone checks out the
upstream tip; an existing clone is refreshed by `git fetch` +
`git reset --hard origin/<branch>`.  Both leave the workspace exactly at
the upstream tip, which is the single state constructed here. -/
def clone_workspace (up : Upstream) (branch : String) : Workspace :=
  { worktree := tipTree up.history, history := up.history, originRef := up.history }

/-- `git add -A` followed by `git commit -m msg`: snapshot the whole
working tree as a new commit. -/
def commitAll (ws : Workspace) (msg : String) : Workspace :=
  { ws with history := ⟨msg, ws.worktree⟩ :: ws.history }

/-- `git push origin <branch>`: the atomic reference update on the remote.
It succeeds iff the remote tip is an ancestor of (or equal to) the pushed
local history — git's fast-forward rule; on success the upstream adopts
the local history and the remote-tracking ref is advanced.  A rejected
push changes nothing. -/
def pushOp (ws : Workspace) (up : Upstream) : Bool × Workspace × Upstream :=
  if up.history <:+ ws.history then
    (true, { ws with originRef := ws.history }, ⟨ws.history⟩)
  else
    (false, ws, up)

/-- Longest common initial segment of two lists. -/
def commonHeadSeq {α : Type} [DecidableEq α] : List α → List α → List α
  | a :: as, b :: bs => if a = b then a :: commonHeadSeq as bs else []
  | _, _ => []

/-- Merge base of two histories: their longest common suffix (the most
recent common ancestor in the linear-history model). -/
def mergeBase (h₁ h₂ : List Commit) : List Commit :=
  (commonHeadSeq h₁.reverse h₂.reverse).reverse

/-- The commits of `hist` that are not in `base` (a suffix of `hist`),
paired with the tree of their parent, oldest first — the commits a rebase
must replay. -/
def newCommitsWithParents : List Commit → List Commit → List (Commit × FileMap)
  | [], _ => []
  | c :: rest, base =>
    if c :: rest = base then []
    else newCommitsWithParents rest base ++ [(c, tipTree rest)]

/-- Replay one commit `c` (whose original parent had tree `parentTree`)
onto the history `h`, as `git rebase` applies one patch: a path changed by
`c` conflicts if the target tip disagrees with both the parent version and
`c`'s version; with no conflict the patch is applied (a patch that is
already present is dropped, as `git pull --rebase` drops it). -/
def replayOne (h : List Commit) (parentTree : FileMap) (c : Commit) :
    Option (List Commit) :=
  let t := tipTree h
  let changed := diffPaths parentTree c.tree
  let conflicts := changed.filter (fun p =>
    fmGet t p != fmGet parentTree p && fmGet t p != fmGet c.tree p)
  if conflicts.isEmpty then
    let newTree := changed.foldl (fun acc p => fmSetOpt acc p (fmGet c.tree p)) t
    if fmExtEq newTree t then some h
    else some (⟨c.msg, newTree⟩ :: h)
  else
    none

/-- Replay a list of commits in order; the first conflict aborts the rebase. -/
def replayAll (h : List Commit) : List (Commit × FileMap) → Option (List Commit)
  | [] => some h
  | (c, pt) :: rest =>
    match replayOne h pt c with
    | none => none
    | some h' => replayAll h' rest

/-- `git pull --rebase origin <branch>`: fetch (updating `originRef`), then
rebase the local branch onto the fetched tip.  With unstaged changes the
rebase refuses to run; a fast-forward or an already-up-to-date branch
succeeds trivially; on divergence the local-only commits are replayed and
a replay conflict makes the pull fail.  A failed pull leaves branch and
working tree unchanged (the callers in sync.py either abort the rebase at
once or hard-reset the workspace, so the transient mid-rebase state is
never observed). -/
def pullRebase (up : Upstream) (ws : Workspace) : Bool × Workspace :=
  let r := up.history
  if fmExtEq ws.worktree (tipTree ws.history) then
    if ws.history <:+ r then
      (true, { worktree := tipTree r, history := r, originRef := r })
    else if r <:+ ws.history then
      (true, { ws with originRef := r })
    else
      let base := mergeBase ws.history r
      match replayAll r (newCommitsWithParents ws.history base) with
      | some newHist =>
        (true, { worktree := tipTree newHist, history := newHist, originRef := r })
      | none => (false, { ws with originRef := r })
  else
    (false, { ws with originRef := r })

/-- Content git leaves in a conflicted file (both versions between markers). -/
def conflictMarker (ours theirs : Option String) : String :=
  "<<<<<<< HEAD\n" ++ ours.getD "" ++ "\n=======\n" ++ theirs.getD "" ++ "\n>>>>>>> origin\n"

/-- Outcome of `git pull --no-rebase origin <branch>`. -/
inductive MergeResult where
  | ok (ws : Workspace)
  | conflict (ws : Workspace) (conflicts : List Path) (tail : List Commit)
  deriving DecidableEq, Repr

/-- `git pull --no-rebase origin <branch>`: fetch, then three-way merge of
the fetched tip into the local branch.  A path conflicts when both sides
changed it relative to the merge base and disagree.  With no conflict a
merge commit is created; the linearised history of the merge puts the
local-only commits on top of the remote history (`tail`), which keeps the
remote tip an ancestor of the result as in git's commit graph.  On
conflict the merge stops: branch unchanged, working tree holding merged
content with conflict markers; `conflicts` and `tail` describe the
in-progress merge that a subsequent `git commit` will conclude. -/
def pullMerge (up : Upstream) (ws : Workspace) (branch : String) : MergeResult :=
  let r := up.history
  if ws.history <:+ r then
    .ok { worktree := tipTree r, history := r, originRef := r }
  else if r <:+ ws.history then
    .ok { ws with originRef := r }
  else
    let base := mergeBase ws.history r
    let bt := tipTree base
    let lt := tipTree ws.history
    let rt := tipTree r
    let remoteChanged := diffPaths bt rt
    let conflicts := remoteChanged.filter (fun p =>
      (fmGet lt p != fmGet bt p) && (fmGet lt p != fmGet rt p))
    let localOnly := ws.history.take (ws.history.length - base.length)
    let tail := localOnly ++ r
    if conflicts.isEmpty then
      let mergedTree := remoteChanged.foldl
        (fun t p => if fmGet lt p != fmGet bt p then t else fmSetOpt t p (fmGet rt p)) lt
      .ok { worktree := mergedTree,
            history := ⟨"Merge branch " ++ branch, mergedTree⟩ :: tail,
            originRef := r }
    else
      let markedTree := remoteChanged.foldl
        (fun t p =>
          if p ∈ conflicts then
            fmSet t p (conflictMarker (fmGet lt p) (fmGet rt p))
          else if fmGet lt p != fmGet bt p then t
          else fmSetOpt t p (fmGet rt p)) lt
      .conflict { ws with worktree := markedTree, originRef := r } conflicts tail

/-- `git checkout --ours .` during a conflicted merge: every conflicted
path gets back the local branch-tip version ("ours"). -/
def resolveOurs (ws : Workspace) (conflicts : List Path) : Workspace :=
  { ws with worktree :=
      conflicts.foldl (fun t p => fmSetOpt t p (fmGet (tipTree ws.history) p)) ws.worktree }

/-- `git add .` + `git commit -m msg` concluding an in-progress merge: the
commit snapshots the working tree and closes the merge, so its history
carries the merged `tail`. -/
def commitMergeResolution (ws : Workspace) (msg : String) (tail : List Commit) : Workspace :=
  { ws with history := ⟨msg, ws.worktree⟩ :: tail }

/-- `sync_push` (sync.py lines 179-213).  Stage everything; if the status
is clean report success with no commit; otherwise commit, `pull --rebase`;
on failure abort the rebase (a failed `pullRebase` already leaves the
branch untouched) and `pull --no-rebase`; if the merge conflicts, resolve
every conflicted file in favour of ours, stage and commit with the marker
message; finally push and report the push result. -/
def sync_push (up : Upstream) (ws : Workspace) (message : String) (branch : String) :
    Bool × Workspace × Upstream :=
  if fmExtEq ws.worktree (tipTree ws.history) then
    (true, ws, up)
  else
    let ws1 := commitAll ws message
    let pr := pullRebase up ws1
    let ws4 :=
      if pr.1 then pr.2
      else
        match pullMerge up pr.2 branch with
        | .ok ws3 => ws3
        | .conflict ws3 conflicts tail =>
          commitMergeResolution (resolveOurs ws3 conflicts) "Auto-merge: accept ours" tail
    pushOp ws4 up

/-- Task-name sanitisation in `lock_task` (sync.py line 240):
`task_name.replace(" ", "_").replace("/", "_")`.  A single-character
`str.replace` is a character-wise substitution, so the chained replaces
are the chained character maps. -/
def lockSafeName (taskName : String) : String :=
  ⟨(taskName.data.map (fun c => if c = ' ' then '_' else c)).map
    (fun c => if c = '/' then '_' else c)⟩

/-- Task-name sanitisation in `unlock_task` (sync.py line 271), transcribed
from its own source line. -/
def unlockSafeName (taskName : String) : String :=
  ⟨(taskName.data.map (fun c => if c = ' ' then '_' else c)).map
    (fun c => if c = '/' then '_' else c)⟩

/-- Contents of a lock record (sync.py line 246). -/
def lockContentOf (agentId taskName : String) : String :=
  "agent: " ++ agentId ++ "\ntask: " ++ taskName ++ "\n"

/-- Commit message of a lock commit (sync.py line 249). -/
def lockMsgOf (agentId taskName : String) : String :=
  "Lock task: " ++ taskName ++ " (agent " ++ agentId ++ ")"

/-- Local phase of `lock_task` (sync.py lines 235-249): make sure
`current_tasks/` exists, fail fast if the lock file is already present in
the workspace, otherwise write it, `git add <lock_file>` and commit.  Only
the lock file is staged, so the commit tree is the HEAD tree plus the
lock file. -/
def lockLocalPhase (ws : Workspace) (taskName agentId : String) : Option Workspace :=
  let lockFile := "current_tasks/" ++ lockSafeName taskName ++ ".lock"
  if (fmGet ws.worktree lockFile).isSome then
    none
  else
    let content := lockContentOf agentId taskName
    some { ws with
      worktree := fmSet ws.worktree lockFile content,
      history := ⟨lockMsgOf agentId taskName,
                  fmSet (tipTree ws.history) lockFile content⟩ :: ws.history }

/-- Failure path of `lock_task` (sync.py lines 255-259): delete the local
lock record (`unlink(missing_ok=True)`), then
`git reset --hard origin/<branch>` — branch and working tree go back to
the last-fetched upstream tip. -/
def lockFailCleanup (ws : Workspace) (taskName : String) : Workspace :=
  let lockFile := "current_tasks/" ++ lockSafeName taskName ++ ".lock"
  let ws1 := { ws with worktree := fmErase ws.worktree lockFile }
  { ws1 with worktree := tipTree ws1.originRef, history := ws1.originRef }

/-- `lock_task` (sync.py lines 221-261), sequential form: local phase,
`pull --rebase` (result deliberately ignored, `check=False`), push; a
rejected push voids the acquisition via `lockFailCleanup` and returns
`false`. -/
def lock_task (up : Upstream) (ws : Workspace) (taskName agentId branch : String) :
    Bool × Workspace × Upstream :=
  match lockLocalPhase ws taskName agentId with
  | none => (false, ws, up)
  | some ws1 =>
    let ws2 := (pullRebase up ws1).2
    let res := pushOp ws2 up
    if res.1 then
      (true, res.2.1, res.2.2)
    else
      (false, lockFailCleanup res.2.1 taskName, res.2.2)

/-- `unlock_task` (sync.py lines 264-278): if the lock file exists, delete
it, `git add -A`, commit, and call `sync_push`; the Boolean returned by
`sync_push` is dropped and the function returns `None` (modelled as
`Unit`).  If the lock file is absent nothing at all happens. -/
def unlock_task (up : Upstream) (ws : Workspace) (taskName branch : String) :
    Unit × Workspace × Upstream :=
  let lockFile := "current_tasks/" ++ unlockSafeName taskName ++ ".lock"
  if (fmGet ws.worktree lockFile).isSome then
    let ws1 := { ws with worktree := fmErase ws.worktree lockFile }
    let ws2 := commitAll ws1 ("Unlock task: " ++ taskName)
    let r := sync_push up ws2 ("Unlock task: " ++ taskName) branch
    ((), r.2.1, r.2.2)
  else
    ((), ws, up)

/-- The `PROGRESS.md` text seeded by `init_upstream_repo` (sync.py lines
88-96), after `textwrap.dedent` strips the 12-space margin and blanks the
whitespace-only closing line. -/
def progressText : String :=
  "# Progress\n\nThis file is maintained by the swarm agents.\nEach agent updates it with status, completed tasks, and next steps.\n"

/-- `init_upstream_repo` (sync.py lines 48-107).  `existing` is the
repository already present at the location (`(upstream / "HEAD").exists()`),
returned unchanged when present.  With a `source`, the upstream is a bare
clone of it.  Otherwise an empty bare repository is initialised and a
transient clone makes one scaffold commit (`current_tasks/.gitkeep`,
`agent_logs/.gitkeep`, `PROGRESS.md`) which is pushed and the clone
discarded. -/
def init_upstream_repo (existing : Option Upstream) (source : Option Upstream)
    (branch : String) : Upstream :=
  match existing with
  | some up => up
  | none =>
    match source with
    | some src => ⟨src.history⟩
    | none =>
      let bare : Upstream := ⟨[]⟩
      let tmp := clone_workspace bare branch
      let scaffold :=
        fmSet (fmSet (fmSet tmp.worktree "current_tasks/.gitkeep" "")
          "agent_logs/.gitkeep" "") "PROGRESS.md" progressText
      let tmp := { tmp with worktree := scaffold }
      let tmp := commitAll tmp "Initial swarm scaffold"
      (pushOp tmp bare).2.2

/-- First path component of a repository-relative path. -/
def topComponent (p : Path) : String :=
  ⟨p.data.takeWhile (fun c => c ≠ '/')⟩

/-- Whether a tree binds a path. -/
def fmContainsKey (m : FileMap) (p : Path) : Bool :=
  (fmKeys m).contains p

/-- Copying a directory over a working tree (`shutil.copytree`/`copy2` with
`dirs_exist_ok=True`): files of the copied directory win, everything else
in the tree is kept. -/
def overlay (t q : FileMap) : FileMap :=
  q ++ t.filter (fun e => !fmContainsKey q e.1)

/-- The copy loop of `seed_project_files` (sync.py lines 133-140): copy
every top-level item of the project except `.git` and `.swarm` over the
clone's tree. -/
def copyProjectFiles (t project : FileMap) : FileMap :=
  overlay t (project.filter
    (fun e => (topComponent e.1 != ".git") && (topComponent e.1 != ".swarm")))

/-- `seed_project_files` (sync.py lines 110-148): clone the upstream into a
transient directory, copy the project files in, `git add .`, and only when
`git status --porcelain` reports changes, commit and push. -/
def seed_project_files (up : Upstream) (project : FileMap) (branch : String) : Upstream :=
  let tmp := clone_workspace up branch
  let copied := copyProjectFiles tmp.worktree project
  if fmExtEq copied (tipTree tmp.history) then
    up
  else
    (pushOp (commitAll { tmp with worktree := copied } "Seed project files") up).2.2

/-- Python's default whitespace set for `str.strip` / `str.splitlines`
(the characters that can occur in this code's data). -/
def pyIsSpace (c : Char) : Bool :=
  c = ' ' || c = '\t' || c = '\n' || c = '\r' || c = '\x0b' || c = '\x0c'

/-- Python `str.strip()` on a character list: drop whitespace from both
ends (right end first — trimming the two ends commutes). -/
def pyStripL (l : List Char) : List Char :=
  ((l.reverse.dropWhile pyIsSpace).reverse).dropWhile pyIsSpace

/-- Python `str.strip()`. -/
def pyStrip (s : String) : String :=
  ⟨pyStripL s.data⟩

/-- Split a character list at every occurrence of `c`
(`"a,b".split(",") = ["a","b"]`; the list of parts is never empty). -/
def splitOnChar (c : Char) : List Char → List (List Char)
  | [] => [[]]
  | x :: xs =>
    match splitOnChar c xs with
    | [] => [[]]
    | h :: t => if x = c then [] :: h :: t else (x :: h) :: t

/-- Python `str.splitlines()` after a `strip()`: the stripped text has no
trailing newline, so splitting at every `'\n'` gives the lines. -/
def pySplitlines (s : String) : List String :=
  (splitOnChar '\n' s.data).map (fun l => ⟨l⟩)

/-- Python `line.split(sep, 1)`: break at the first occurrence of `c`;
returns `none` when `c` does not occur. -/
def breakAtChar (c : Char) : List Char → Option (List Char × List Char)
  | [] => none
  | x :: xs =>
    if x = c then some ([], xs)
    else
      match breakAtChar c xs with
      | none => none
      | some (k, v) => some (x :: k, v)

/-- Python `line.split(sep, maxsplit)` on characters: split at `'|'`-like
separators, at most `n` times, keeping the remainder in the last part. -/
def splitCharLimit (c : Char) : Nat → List Char → List (List Char)
  | 0, l => [l]
  | _ + 1, [] => [[]]
  | n + 1, x :: xs =>
    if x = c then [] :: splitCharLimit c n xs
    else
      match splitCharLimit c (n + 1) xs with
      | [] => [x :: []]
      | h :: t => (x :: h) :: t

/-- One parsed lock record: Python builds `info = {"file": name}` and adds
one entry per `key: value` line (a dict update replaces an existing key).
The record is the dict as an insertion-ordered association list. -/
def parseLockFile (name content : String) : List (String × String) :=
  (pySplitlines (pyStrip content)).foldl
    (fun info line =>
      match breakAtChar ':' line.data with
      | none => info
      | some (k, v) => fmSet info (pyStrip ⟨k⟩) (pyStrip ⟨v⟩))
    [("file", name)]

/-- Whether a path is a `current_tasks/*.lock` entry as
`Path("current_tasks").glob("*.lock")` enumerates them: directly inside
the directory and ending in `.lock`.  pathlib's glob is fnmatch-based, so
its `*` matches hidden names too — a dotfile such as
`current_tasks/.profile.lock` is returned. -/
def isLockEntry (p : Path) : Bool :=
  "current_tasks/".data.isPrefixOf p.data &&
    (let name := p.data.drop 14
     ".lock".data.isSuffixOf name && !name.contains '/')

/-- The lock files of a working tree: file name and content. -/
def lockEntries (wt : FileMap) : List (String × String) :=
  (wt.filter (fun e => isLockEntry e.1)).map (fun e => (⟨e.1.data.drop 14⟩, e.2))

/-- Whether the directory `d` exists in a working tree (a directory exists
iff some file lives under it; git tracks no empty directories, and the
seeded `current_tasks/.gitkeep` keeps this one present). -/
def dirExistsIn (wt : FileMap) (d : String) : Bool :=
  wt.any (fun e => (d ++ "/").data.isPrefixOf e.1.data)

/-- `list_active_tasks` (sync.py lines 281-296): a pure read.  If
`current_tasks/` does not exist return `[]`; enumerate `*.lock` files
(`Path.glob` swallows a `PermissionError`, so an unreadable directory
yields no files) and parse each into a record.  `unreadableDirs` models
the directories the process may not read. -/
def list_active_tasks (wt : FileMap) (unreadableDirs : List String) :
    List (List (String × String)) :=
  if dirExistsIn wt "current_tasks" then
    let names := if "current_tasks" ∈ unreadableDirs then [] else lockEntries wt
    names.map (fun e => parseLockFile e.1 e.2)
  else
    []

/-- One parsed entry of `_git_log` (monitor.py lines 40-47). -/
structure LogEntry where
  hash : String
  author : String
  when : String
  message : String
  deriving DecidableEq, Repr

/-- One line of `git log --format=%H|%an|%ar|%s` for a commit.  The commit
hash, author name and relative age are repository metadata outside the
tree model, so they are supplied as functions of the commit. -/
def gitLogLine (hashOf authorOf ageOf : Commit → String) (c : Commit) : String :=
  hashOf c ++ "|" ++ authorOf c ++ "|" ++ ageOf c ++ "|" ++ c.msg

/-- Newline-terminated output lines as characters (each `git log` line is
printed followed by a newline). -/
def joinLinesNL (lines : List String) : List Char :=
  lines.foldr (fun l acc => l.data ++ '\n' :: acc) []

/-- Raw stdout of `git log --max-count=count --format=%H|%an|%ar|%s`: one
line per commit, newest first, each terminated by a newline. -/
def gitLogStdout (hashOf authorOf ageOf : Commit → String)
    (history : List Commit) (count : Nat) : String :=
  ⟨joinLinesNL ((history.take count).map (gitLogLine hashOf authorOf ageOf))⟩

/-- One iteration of `_git_log`'s parsing loop (monitor.py lines 37-47):
`line.split("|", 3)`, kept only when it has exactly four parts, with the
hash truncated to its first 8 characters. -/
def parseLogLine (line : String) (entries : List LogEntry) : List LogEntry :=
  match splitCharLimit '|' 3 line.data with
  | [h, an, ar, s] =>
    { hash := ⟨h.take 8⟩, author := ⟨an⟩, when := ⟨ar⟩, message := ⟨s⟩ } :: entries
  | _ => entries

/-- Parsing loop of `_git_log` (monitor.py lines 36-48):
`result.stdout.strip().splitlines()`, then one `parseLogLine` per line,
in order. -/
def parseGitLog (stdout : String) : List LogEntry :=
  (pySplitlines (pyStrip stdout)).foldr parseLogLine []

/-- `_git_log` (monitor.py lines 19-48): `none` stands for a missing or
unreadable repository (`repo.exists()` false, or `git log` failing, e.g. a
repository with no commits) — these return `[]` instead of an error.
Otherwise parse the formatted log output. -/
def git_log (hashOf authorOf ageOf : Commit → String)
    (repo : Option (List Commit)) (count : Nat) : List LogEntry :=
  match repo with
  | none => []
  | some history =>
    if history.isEmpty then []
    else parseGitLog (gitLogStdout hashOf authorOf ageOf history count)

/-- `SwarmMonitor.recent_commits` (monitor.py lines 90-92): delegates to
`_git_log` on the upstream repository. -/
def recent_commits (hashOf authorOf ageOf : Commit → String)
    (upstream : Option (List Commit)) (count : Nat) : List LogEntry :=
  git_log hashOf authorOf ageOf upstream count

/-!
## Two concurrent `lock_task` calls

Each agent owns its workspace; the only shared state is the upstream
repository, touched atomically by exactly two operations of `lock_task`:
the fetch inside `pull --rebase` (a read) and the push (the atomic
reference compare-and-swap).  The purely local steps of the two agents
commute with everything the other agent does, so an arbitrary concurrent
execution is captured by interleaving, per agent, the two upstream events
`pull` then `push` (with the local phase before and the local cleanup
folded into the push step).  A schedule is a list of Booleans naming which
agent performs its next upstream event; picks for an agent that already
finished are no-ops.
-/

theorem suffix_cons_self (l : List Commit) (c : Commit) : l <:+ c :: l :=
  ⟨[c], rfl⟩

/-- C6: `init_upstream_repo` called with no source on a location with no
existing repository creates an empty repository and synthesizes exactly
one seed commit; a fresh workspace clone afterwards contains the tasks
directory, the agent-log directory, and the progress record file with
non-empty content. -/
theorem init_upstream_scaffold (branch : String) :
    (init_upstream_repo none none branch).history.length = 1 ∧
    fmGet (clone_workspace (init_upstream_repo none none branch) branch).worktree
        "current_tasks/.gitkeep" = some "" ∧
    dirExistsIn (clone_workspace (init_upstream_repo none none branch) branch).worktree
        "current_tasks" = true ∧
    fmGet (clone_workspace (init_upstream_repo none none branch) branch).worktree
        "agent_logs/.gitkeep" = some "" ∧
    dirExistsIn (clone_workspace (init_upstream_repo none none branch) branch).worktree
        "agent_logs" = true ∧
    fmGet (clone_workspace (init_upstream_repo none none branch) branch).worktree
        "PROGRESS.md" = some progressText ∧
    progressText ≠ "" := by
  refine ⟨rfl, rfl, rfl, rfl, rfl, rfl, by decide⟩

/-- Witness: the C6 theorem evaluated at the default branch name. -/
theorem init_upstream_scaffold_witness :
    (init_upstream_repo none none "main").history.length = 1 ∧
    fmGet (clone_workspace (init_upstream_repo none none "main") "main").worktree
        "current_tasks/.gitkeep" = some "" ∧
    dirExistsIn (clone_workspace (init_upstream_repo none none "main") "main").worktree
        "current_tasks" = true ∧
    fmGet (clone_workspace (init_upstream_repo none none "main") "main").worktree
        "agent_logs/.gitkeep" = some "" ∧
    dirExistsIn (clone_workspace (init_upstream_repo none none "main") "main").worktree
        "agent_logs" = true ∧
    fmGet (clone_workspace (init_upstream_repo none none "main") "main").worktree
        "PROGRESS.md" = some progressText ∧
    progressText ≠ "" :=
  init_upstream_scaffold "main"

/-!
## C5: task-name sanitisation
-/

/-- The character substitution the spec describes: spaces and path
separators become underscores. -/
def sanitizeCharSpec (c : Char) : Char :=
  if c = ' ' ∨ c = '/' then '_' else c

theorem lockSafeName_data (t : String) :
    (lockSafeName t).data = t.data.map sanitizeCharSpec := by
  have hfun : ∀ c : Char,
      (if (if c = ' ' then '_' else c) = '/' then '_' else if c = ' ' then '_' else c)
        = sanitizeCharSpec c := by
    intro c
    by_cases h₁ : c = ' '
    · simp [h₁, sanitizeCharSpec]
    · by_cases h₂ : c = '/'
      · simp [h₁, h₂, sanitizeCharSpec]
      · simp [h₁, h₂, sanitizeCharSpec]
  simp only [lockSafeName, List.map_map, Function.comp]
  exact List.map_congr_left (fun c _ => hfun c)

theorem sanitizeCharSpec_inj_on (a b : Char)
    (ha : a ≠ '_' ∧ a ≠ '/') (hb : b ≠ '_' ∧ b ≠ '/')
    (h : sanitizeCharSpec a = sanitizeCharSpec b) : a = b := by
  unfold sanitizeCharSpec at h
  by_cases h₁ : a = ' ' <;> by_cases h₂ : b = ' '
  · rw [h₁, h₂]
  · rw [if_pos (Or.inl h₁), if_neg (by simp [h₂, hb.2])] at h
    exact absurd h.symm hb.1
  · rw [if_neg (by simp [h₁, ha.2]), if_pos (Or.inl h₂)] at h
    exact absurd h ha.1
  · rw [if_neg (by simp [h₁, ha.2]), if_neg (by simp [h₂, hb.2])] at h
    exact h

theorem map_sanitize_inj (l₁ l₂ : List Char)
    (h₁ : ∀ c ∈ l₁, c ≠ '_' ∧ c ≠ '/') (h₂ : ∀ c ∈ l₂, c ≠ '_' ∧ c ≠ '/')
    (h : l₁.map sanitizeCharSpec = l₂.map sanitizeCharSpec) : l₁ = l₂ := by
  induction l₁ generalizing l₂ with
  | nil =>
    cases l₂ with
    | nil => rfl
    | cons b bs => simp at h
  | cons a as ih =>
    cases l₂ with
    | nil => simp at h
    | cons b bs =>
      simp only [List.map_cons, List.cons.injEq] at h
      have hab := sanitizeCharSpec_inj_on a b (h₁ a (by simp)) (h₂ b (by simp)) h.1
      have htl := ih bs (fun c hc => h₁ c (List.mem_cons_of_mem a hc))
        (fun c hc => h₂ c (List.mem_cons_of_mem b hc)) h.2
      rw [hab, htl]

/-- C5: `lock_task` and `unlock_task` sanitise the task name with the same
deterministic function; it maps every space and every path separator to an
underscore (and touches nothing else); it is injective on names over the
expected character set (no underscores, no path separators); and two task
names that sanitise to the same key address the same lock file, so an
acquire of the second name fails fast against a workspace holding the
first. -/
theorem sanitize_same_deterministic_collision_free :
    lockSafeName = unlockSafeName ∧
    (∀ t : String, (lockSafeName t).data = t.data.map sanitizeCharSpec) ∧
    sanitizeCharSpec ' ' = '_' ∧
    sanitizeCharSpec '/' = '_' ∧
    (∀ c : Char, c ≠ ' ' → c ≠ '/' → sanitizeCharSpec c = c) ∧
    (∀ t₁ t₂ : String,
      (∀ c ∈ t₁.data, c ≠ '_' ∧ c ≠ '/') → (∀ c ∈ t₂.data, c ≠ '_' ∧ c ≠ '/') →
      lockSafeName t₁ = lockSafeName t₂ → t₁ = t₂) ∧
    (∀ t₁ t₂ : String, ∀ up : Upstream, ∀ ws : Workspace, ∀ ag br : String,
      lockSafeName t₁ = lockSafeName t₂ →
      (fmGet ws.worktree ("current_tasks/" ++ lockSafeName t₁ ++ ".lock")).isSome →
      lock_task up ws t₂ ag br = (false, ws, up)) := by
  refine ⟨rfl, lockSafeName_data, rfl, rfl, ?_, ?_, ?_⟩
  · intro c h₁ h₂
    simp [sanitizeCharSpec, h₁, h₂]
  · intro t₁ t₂ h₁ h₂ heq
    have hdata : t₁.data.map sanitizeCharSpec = t₂.data.map sanitizeCharSpec := by
      rw [← lockSafeName_data, ← lockSafeName_data, heq]
    have := map_sanitize_inj t₁.data t₂.data h₁ h₂ hdata
    cases t₁
    cases t₂
    exact congrArg String.mk this
  · intro t₁ t₂ up ws ag br heq hsome
    unfold lock_task lockLocalPhase
    rw [← heq, if_pos hsome]

/-- Witness for C5: concrete names exercising every conjunct, e.g.
`"fix bug"` and `"fix/bug"` sanitise to the key `"fix_bug"`. -/
theorem sanitize_witness :
    lockSafeName "fix bug" = "fix_bug" ∧
    unlockSafeName "a/b c" = "a_b_c" ∧
    (∀ c ∈ ("fix bug" : String).data, c ≠ '_' ∧ c ≠ '/') ∧
    ("fix bug" : String) = "fix bug" := by
  refine ⟨?_, ?_, by decide, ?_⟩
  · decide
  · decide
  · exact (sanitize_same_deterministic_collision_free.2.2.2.2.2.1 "fix bug" "fix bug"
      (by decide) (by decide) rfl)

/-!
## Workspace cleanliness and the publish pipeline
-/

/-- A workspace is clean when `git status --porcelain` after `git add -A`
reports nothing: the working tree matches the branch tip. -/
def wsClean (ws : Workspace) : Bool :=
  fmExtEq ws.worktree (tipTree ws.history)

theorem wsClean_commitAll (ws : Workspace) (m : String) :
    wsClean (commitAll ws m) = true := by
  simp [wsClean, commitAll, tipTree, fmExtEq_refl]

theorem replayOne_suffix (h : List Commit) (pt : FileMap) (c : Commit)
    (h' : List Commit) (he : replayOne h pt c = some h') : h <:+ h' := by
  simp only [replayOne] at he
  split at he
  · split at he
    · cases he
      exact List.suffix_refl _
    · cases he
      exact suffix_cons_self _ _
  · cases he

theorem replayAll_suffix (l : List (Commit × FileMap)) :
    ∀ h h' : List Commit, replayAll h l = some h' → h <:+ h' := by
  induction l with
  | nil =>
    intro h h' he
    unfold replayAll at he
    cases he
    exact List.suffix_refl _
  | cons p rest ih =>
    intro h h' he
    obtain ⟨c, pt⟩ := p
    unfold replayAll at he
    cases hro : replayOne h pt c with
    | none => rw [hro] at he; cases he
    | some hmid =>
      rw [hro] at he
      exact (replayOne_suffix h pt c hmid hro).trans (ih hmid h' he)

theorem pushOp_of_suffix (ws : Workspace) (up : Upstream)
    (h : up.history <:+ ws.history) :
    pushOp ws up = (true, { ws with originRef := ws.history }, ⟨ws.history⟩) := by
  unfold pushOp
  rw [if_pos h]

/-- The two shapes a `pull --rebase` can leave: failure with everything but
the remote-tracking ref untouched, or success with a clean workspace whose
branch now has the fetched tip as an ancestor. -/
theorem pullRebase_cases (up : Upstream) (ws : Workspace) :
    ((pullRebase up ws).1 = false ∧
       (pullRebase up ws).2 = { ws with originRef := up.history }) ∨
    ((pullRebase up ws).1 = true ∧ wsClean (pullRebase up ws).2 = true ∧
       up.history <:+ (pullRebase up ws).2.history ∧
       (pullRebase up ws).2.originRef = up.history) := by
  simp only [pullRebase]
  split
  next hclean =>
    split
    next hff =>
      right
      exact ⟨rfl, fmExtEq_refl _, List.suffix_refl _, rfl⟩
    next hff =>
      split
      next hup =>
        right
        exact ⟨rfl, hclean, hup, rfl⟩
      next hup =>
        split
        next newHist hra =>
          right
          exact ⟨rfl, fmExtEq_refl _, replayAll_suffix _ _ _ hra, rfl⟩
        next hra =>
          left
          exact ⟨rfl, rfl⟩
  next hclean =>
    left
    exact ⟨rfl, rfl⟩

/-- The two shapes a `pull --no-rebase` of a clean workspace can leave:
a completed merge (clean workspace, fetched tip an ancestor), or a
conflicted merge (branch untouched, `tail` the history the concluding
commit will adopt, with the fetched tip an ancestor of it). -/
theorem pullMerge_cases (up : Upstream) (ws : Workspace) (b : String)
    (hclean : wsClean ws = true) :
    (∃ ws3, pullMerge up ws b = .ok ws3 ∧ wsClean ws3 = true ∧
       up.history <:+ ws3.history) ∨
    (∃ ws3 cs tail, pullMerge up ws b = .conflict ws3 cs tail ∧
       ws3.history = ws.history ∧ up.history <:+ tail) := by
  simp only [pullMerge]
  split
  next hff =>
    exact Or.inl ⟨_, rfl, fmExtEq_refl _, List.suffix_refl _⟩
  next hff =>
    split
    next hup =>
      exact Or.inl ⟨_, rfl, hclean, hup⟩
    next hup =>
      split
      next hce =>
        refine Or.inl ⟨_, rfl, fmExtEq_refl _, ?_⟩
        exact (List.suffix_append _ up.history).trans (suffix_cons_self _ _)
      next hce =>
        exact Or.inr ⟨_, _, _, rfl, rfl, List.suffix_append _ up.history⟩

theorem wsClean_setOrigin (ws : Workspace) (o : List Commit) :
    wsClean { ws with originRef := o } = wsClean ws := rfl

/-- The no-op fast path of `sync_push`: with a clean tree it reports
success at once, without committing or pushing. -/
theorem sync_push_clean_noop (up : Upstream) (ws : Workspace) (m b : String)
    (h : fmExtEq ws.worktree (tipTree ws.history) = true) :
    sync_push up ws m b = (true, ws, up) := by
  simp only [sync_push]
  rw [if_pos h]

/-- Run sequentially (no concurrent upstream movement between the fetch
and the push), `sync_push` always succeeds and leaves a clean workspace:
every integration branch ends with the upstream tip an ancestor of the
local branch, so the final push is a fast-forward. -/
theorem sync_push_succeeds (up : Upstream) (ws : Workspace) (m b : String) :
    (sync_push up ws m b).1 = true ∧ wsClean (sync_push up ws m b).2.1 = true := by
  by_cases h : fmExtEq ws.worktree (tipTree ws.history) = true
  · rw [sync_push_clean_noop up ws m b h]
    exact ⟨rfl, h⟩
  · simp only [sync_push]
    rw [if_neg h]
    rcases pullRebase_cases up (commitAll ws m) with ⟨h1, h2⟩ | ⟨h1, h2, h3, h4⟩
    · rw [h1, h2]
      simp only [Bool.false_eq_true, if_false]
      have hclean2 : wsClean { commitAll ws m with originRef := up.history } = true := by
        rw [wsClean_setOrigin]
        exact wsClean_commitAll ws m
      rcases pullMerge_cases up { commitAll ws m with originRef := up.history } b hclean2 with
        ⟨ws3, heq, hcl, hsuf⟩ | ⟨ws3, cs, tail, heq, hhist, hsuf⟩
      · rw [heq]
        rw [pushOp_of_suffix _ _ hsuf]
        exact ⟨rfl, hcl⟩
      · rw [heq]
        have hsuf2 : up.history <:+
            (commitMergeResolution (resolveOurs ws3 cs) "Auto-merge: accept ours" tail).history :=
          hsuf.trans (suffix_cons_self tail _)
        rw [pushOp_of_suffix _ _ hsuf2]
        refine ⟨rfl, ?_⟩
        rw [wsClean_setOrigin]
        exact fmExtEq_refl _
    · rw [h1]
      simp only [if_true]
      rw [pushOp_of_suffix _ _ h3]
      refine ⟨rfl, ?_⟩
      rw [wsClean_setOrigin]
      exact h2

/-!
## C3: publish stages, no-op check, idempotence
-/

/-- C3: `sync_push` first stages everything and, with nothing changed,
returns success immediately without creating a commit (the state is
untouched); consequently a second publish right after a publish performs
no second commit and reports success, and the first publish reports
success as well. -/
theorem sync_push_noop_and_idempotent (up : Upstream) (ws : Workspace) (m b m' : String) :
    (fmExtEq ws.worktree (tipTree ws.history) = true →
       sync_push up ws m b = (true, ws, up)) ∧
    (sync_push up ws m b).1 = true ∧
    sync_push (sync_push up ws m b).2.2 (sync_push up ws m b).2.1 m' b =
      (true, (sync_push up ws m b).2.1, (sync_push up ws m b).2.2) := by
  refine ⟨fun h => sync_push_clean_noop up ws m b h, (sync_push_succeeds up ws m b).1, ?_⟩
  exact sync_push_clean_noop _ _ _ _ (sync_push_succeeds up ws m b).2

/-- Witness for C3: a dirty single-file workspace over an empty upstream. -/
theorem sync_push_noop_and_idempotent_witness :
    (fmExtEq (Workspace.mk [("a.txt", "x")] [] []).worktree
         (tipTree (Workspace.mk [("a.txt", "x")] [] []).history) = true →
       sync_push ⟨[]⟩ ⟨[("a.txt", "x")], [], []⟩ "m" "main" = (true, ⟨[("a.txt", "x")], [], []⟩, ⟨[]⟩)) ∧
    (sync_push ⟨[]⟩ ⟨[("a.txt", "x")], [], []⟩ "m" "main").1 = true ∧
    sync_push (sync_push ⟨[]⟩ ⟨[("a.txt", "x")], [], []⟩ "m" "main").2.2
        (sync_push ⟨[]⟩ ⟨[("a.txt", "x")], [], []⟩ "m" "main").2.1 "m2" "main" =
      (true, (sync_push ⟨[]⟩ ⟨[("a.txt", "x")], [], []⟩ "m" "main").2.1,
        (sync_push ⟨[]⟩ ⟨[("a.txt", "x")], [], []⟩ "m" "main").2.2) :=
  sync_push_noop_and_idempotent ⟨[]⟩ ⟨[("a.txt", "x")], [], []⟩ "m" "main" "m2"

/-!
## C4: release deletes, commits, publishes; idempotent when absent
-/

/-- The lock-record path `unlock_task` works on (sync.py line 272). -/
def unlockLockPath (task : String) : Path :=
  "current_tasks/" ++ unlockSafeName task ++ ".lock"

/-- A workspace with one file deleted from the working tree. -/
def wsDeleteFile (ws : Workspace) (p : Path) : Workspace :=
  { ws with worktree := fmErase ws.worktree p }

/-- The workspace `unlock_task` builds on its active path: lock record
deleted, deletion committed. -/
def unlockCommittedWs (ws : Workspace) (task : String) : Workspace :=
  commitAll (wsDeleteFile ws (unlockLockPath task)) ("Unlock task: " ++ task)

/-- C4: `unlock_task` deletes the lock record when present, commits, and
runs the publish step, which reports success (its no-change fast path:
the deletion was already committed, so there is nothing left to stage and
the upstream is not contacted); on a task whose lock record is absent it
is a strict no-op — no commit, no push, no failure (the function is total
and returns the state unchanged). -/
theorem unlock_task_release_and_idempotent (up : Upstream) (ws : Workspace) (task b : String) :
    (fmGet ws.worktree (unlockLockPath task) = none →
       unlock_task up ws task b = ((), ws, up)) ∧
    (∀ v, fmGet ws.worktree (unlockLockPath task) = some v →
       unlock_task up ws task b = ((), unlockCommittedWs ws task, up) ∧
       fmGet (unlock_task up ws task b).2.1.worktree (unlockLockPath task) = none ∧
       (unlock_task up ws task b).2.1.history =
         Commit.mk ("Unlock task: " ++ task)
           (fmErase ws.worktree (unlockLockPath task)) :: ws.history ∧
       sync_push up (unlockCommittedWs ws task) ("Unlock task: " ++ task) b
         = (true, unlockCommittedWs ws task, up)) := by
  constructor
  · intro h
    simp only [unlock_task, unlockLockPath] at h ⊢
    rw [h]
    simp
  · intro v hv
    have hsp := sync_push_clean_noop up (unlockCommittedWs ws task)
      ("Unlock task: " ++ task) b (wsClean_commitAll _ _)
    have hrun : unlock_task up ws task b = ((), unlockCommittedWs ws task, up) := by
      simp only [unlock_task, unlockLockPath] at hv ⊢
      rw [hv]
      simp only [Option.isSome_some, if_true]
      simp only [unlockCommittedWs, wsDeleteFile, unlockLockPath] at hsp
      rw [hsp]
      rfl
    refine ⟨hrun, ?_, ?_, hsp⟩
    · rw [hrun]
      exact fmGet_erase_self ws.worktree _
    · rw [hrun]
      rfl

/-- Witness for C4: a workspace holding the lock record for task `"t"`,
and one without it. -/
theorem unlock_task_release_witness :
    (fmGet (Workspace.mk [] [] []).worktree (unlockLockPath "t") = none ∧
     unlock_task ⟨[]⟩ ⟨[], [], []⟩ "t" "main" = ((), ⟨[], [], []⟩, ⟨[]⟩)) ∧
    fmGet (Workspace.mk [("current_tasks/t.lock", "agent: a\ntask: t\n")] [] []).worktree
        (unlockLockPath "t") = some "agent: a\ntask: t\n" ∧
    fmGet (unlock_task ⟨[]⟩ ⟨[("current_tasks/t.lock", "agent: a\ntask: t\n")], [], []⟩
        "t" "main").2.1.worktree (unlockLockPath "t") = none := by
  refine ⟨⟨by decide, ?_⟩, by decide, ?_⟩
  · exact (unlock_task_release_and_idempotent ⟨[]⟩ ⟨[], [], []⟩ "t" "main").1 (by decide)
  · exact ((unlock_task_release_and_idempotent ⟨[]⟩
      ⟨[("current_tasks/t.lock", "agent: a\ntask: t\n")], [], []⟩ "t" "main").2
      "agent: a\ntask: t\n" (by decide)).2.1

/-!
## C10: release returns None and discards the publish result
-/

/-- C10: for every input `unlock_task` returns `None` (`Unit`), and on the
path that invokes the publish step its output state is exactly the state
component of `sync_push`'s result while the Boolean is dropped — a failed
push during release would not be observable from the return value. -/
theorem unlock_task_returns_none_discards_bool (up : Upstream) (ws : Workspace)
    (task b : String) :
    (unlock_task up ws task b).1 = () ∧
    ((fmGet ws.worktree (unlockLockPath task)).isSome = true →
       unlock_task up ws task b =
         ((), (sync_push up (unlockCommittedWs ws task) ("Unlock task: " ++ task) b).2)) := by
  constructor
  · rfl
  · intro h
    simp only [unlock_task, unlockLockPath] at h ⊢
    rw [h]
    simp [unlockCommittedWs, wsDeleteFile, unlockLockPath]

/-- Witness for C10: a workspace holding the lock record for `"t"`. -/
theorem unlock_task_returns_none_witness :
    ((fmGet (Workspace.mk [("current_tasks/t.lock", "x")] [] []).worktree
        (unlockLockPath "t")).isSome = true) ∧
    (unlock_task ⟨[]⟩ ⟨[("current_tasks/t.lock", "x")], [], []⟩ "t" "main").1 = () ∧
    unlock_task ⟨[]⟩ ⟨[("current_tasks/t.lock", "x")], [], []⟩ "t" "main" =
      ((), (sync_push ⟨[]⟩
          (unlockCommittedWs ⟨[("current_tasks/t.lock", "x")], [], []⟩ "t")
          ("Unlock task: " ++ "t") "main").2) := by
  refine ⟨by decide, (unlock_task_returns_none_discards_bool ⟨[]⟩
    ⟨[("current_tasks/t.lock", "x")], [], []⟩ "t" "main").1, ?_⟩
  exact (unlock_task_returns_none_discards_bool ⟨[]⟩
    ⟨[("current_tasks/t.lock", "x")], [], []⟩ "t" "main").2 (by decide)

/-!
## C7: project seeding commits only on change, idempotent
-/

theorem fmContainsKey_of_mem (q : FileMap) (e : Path × String) (he : e ∈ q) :
    fmContainsKey q e.1 = true := by
  have hm : e.1 ∈ fmKeys q := List.mem_map_of_mem Prod.fst he
  simpa [fmContainsKey, List.contains] using List.elem_eq_true_of_mem hm

theorem overlay_idem (t q : FileMap) : overlay (overlay t q) q = overlay t q := by
  unfold overlay
  rw [List.filter_append]
  have h1 : q.filter (fun e => !fmContainsKey q e.1) = [] := by
    rw [List.filter_eq_nil_iff]
    intro e he
    simp [fmContainsKey_of_mem q e he]
  have h2 : (t.filter (fun e => !fmContainsKey q e.1)).filter (fun e => !fmContainsKey q e.1)
      = t.filter (fun e => !fmContainsKey q e.1) := by
    rw [List.filter_eq_self]
    intro e he
    exact (List.mem_filter.1 he).2
  rw [h1, h2]
  simp

theorem copyProjectFiles_idem (t project : FileMap) :
    copyProjectFiles (copyProjectFiles t project) project = copyProjectFiles t project := by
  unfold copyProjectFiles
  exact overlay_idem t _

/-- C7: `seed_project_files` commits and pushes only when the tree changed
after the copy (an unchanged tree adds no commit and leaves the upstream
untouched); at most one commit is added; and a second call with the same
project content is a no-op, so two calls produce exactly one commit
total. -/
theorem seed_project_files_idempotent (up : Upstream) (project : FileMap) (b : String) :
    (fmExtEq (copyProjectFiles (tipTree up.history) project) (tipTree up.history) = true →
       seed_project_files up project b = up) ∧
    (seed_project_files up project b).history.length ≤ up.history.length + 1 ∧
    seed_project_files (seed_project_files up project b) project b =
      seed_project_files up project b := by
  have hnoop : ∀ u : Upstream,
      fmExtEq (copyProjectFiles (tipTree u.history) project) (tipTree u.history) = true →
      seed_project_files u project b = u := by
    intro u h
    simp only [seed_project_files, clone_workspace]
    rw [if_pos h]
  have hpush : ∀ u : Upstream,
      fmExtEq (copyProjectFiles (tipTree u.history) project) (tipTree u.history) = false →
      seed_project_files u project b =
        ⟨Commit.mk "Seed project files" (copyProjectFiles (tipTree u.history) project)
          :: u.history⟩ := by
    intro u h
    simp only [seed_project_files, clone_workspace]
    rw [if_neg (by simp [h])]
    rw [pushOp_of_suffix _ _ (suffix_cons_self _ _)]
    rfl
  refine ⟨hnoop up, ?_, ?_⟩
  · cases h : fmExtEq (copyProjectFiles (tipTree up.history) project) (tipTree up.history) with
    | true =>
      rw [hnoop up h]
      omega
    | false =>
      rw [hpush up h]
      simp
  · cases h : fmExtEq (copyProjectFiles (tipTree up.history) project) (tipTree up.history) with
    | true =>
      rw [hnoop up h]
      exact hnoop up h
    | false =>
      rw [hpush up h]
      apply hnoop
      show fmExtEq (copyProjectFiles
        (tipTree (Commit.mk "Seed project files"
          (copyProjectFiles (tipTree up.history) project) :: up.history)) project) _ = true
      rw [show tipTree (Commit.mk "Seed project files"
            (copyProjectFiles (tipTree up.history) project) :: up.history)
          = copyProjectFiles (tipTree up.history) project from rfl]
      rw [copyProjectFiles_idem]
      exact fmExtEq_refl _

/-- Witness for C7: seeding a one-file project into a freshly bootstrapped
upstream twice. -/
theorem seed_project_files_idempotent_witness :
    (fmExtEq (copyProjectFiles (tipTree (Upstream.mk []).history) [("src.py", "A")])
         (tipTree (Upstream.mk []).history) = true →
       seed_project_files ⟨[]⟩ [("src.py", "A")] "main" = ⟨[]⟩) ∧
    (seed_project_files ⟨[]⟩ [("src.py", "A")] "main").history.length ≤
      (Upstream.mk []).history.length + 1 ∧
    seed_project_files (seed_project_files ⟨[]⟩ [("src.py", "A")] "main")
        [("src.py", "A")] "main" =
      seed_project_files ⟨[]⟩ [("src.py", "A")] "main" :=
  seed_project_files_idempotent ⟨[]⟩ [("src.py", "A")] "main"

/-!
## C2: publish pipeline with rebase failure, merge failure, ours-wins
-/

theorem dropWhile_cons_neg (p : Char → Bool) (c : Char) (l : List Char)
    (h : p c = false) : (c :: l).dropWhile p = c :: l := by
  simp [List.dropWhile_cons, h]

theorem not_head_of_dropWhile_cons_eq (p : Char → Bool) (c : Char) (l : List Char)
    (h : (c :: l).dropWhile p = c :: l) : p c = false := by
  by_contra hb
  have hc : p c = true := by
    cases hpc : p c
    · exact absurd hpc hb
    · rfl
  rw [List.dropWhile_cons, if_pos hc] at h
  have := congrArg List.length h
  have hle : (List.dropWhile p l).length ≤ l.length := (List.dropWhile_suffix p).length_le
  simp at this
  omega

theorem dropWhile_append_stable (p : Char → Bool) (l₁ l₂ : List Char)
    (h : l₁.dropWhile p = l₁) (hne : l₁ ≠ []) :
    (l₁ ++ l₂).dropWhile p = l₁ ++ l₂ := by
  cases l₁ with
  | nil => exact absurd rfl hne
  | cons c cs =>
    have hpc := not_head_of_dropWhile_cons_eq p c cs h
    simp [List.dropWhile_cons, hpc]

/-- A `strip`-stable character list is stable on both ends. -/
theorem pyStripL_stable_parts (l : List Char) (h : pyStripL l = l) :
    l.dropWhile pyIsSpace = l ∧ l.reverse.dropWhile pyIsSpace = l.reverse := by
  have hd : l.reverse.dropWhile pyIsSpace <:+ l.reverse := List.dropWhile_suffix _
  have he : (l.reverse.dropWhile pyIsSpace).reverse.dropWhile pyIsSpace <:+
      (l.reverse.dropWhile pyIsSpace).reverse := List.dropWhile_suffix _
  have hlen : ((l.reverse.dropWhile pyIsSpace).reverse.dropWhile pyIsSpace).length
      = l.length := by
    have := congrArg List.length h
    simpa [pyStripL] using this
  have hdlen : (l.reverse.dropWhile pyIsSpace).length = l.length := by
    have h1 := he.length_le
    have h2 := hd.length_le
    simp at h1 h2
    omega
  have hdeq : l.reverse.dropWhile pyIsSpace = l.reverse :=
    hd.eq_of_length (by simpa using hdlen)
  refine ⟨?_, hdeq⟩
  have heq2 : (l.reverse.dropWhile pyIsSpace).reverse.dropWhile pyIsSpace =
      (l.reverse.dropWhile pyIsSpace).reverse := he.eq_of_length (by simp [hlen, hdlen])
  rw [hdeq, List.reverse_reverse] at heq2
  exact heq2

/-- Stripping a concatenation whose left part starts with a non-space
character and whose right part ends with a non-space character changes
nothing. -/
theorem pyStripL_stable_append_right (x y : List Char)
    (hx : x.dropWhile pyIsSpace = x) (hxne : x ≠ [])
    (hy : y.reverse.dropWhile pyIsSpace = y.reverse) (hyne : y ≠ []) :
    pyStripL (x ++ y) = x ++ y := by
  unfold pyStripL
  have hyne' : y.reverse ≠ [] := by
    intro hc
    exact hyne (by simpa using congrArg List.reverse hc)
  rw [show (x ++ y).reverse = y.reverse ++ x.reverse by simp]
  rw [dropWhile_append_stable pyIsSpace y.reverse x.reverse hy hyne']
  rw [show (y.reverse ++ x.reverse).reverse = x ++ y by simp]
  exact dropWhile_append_stable pyIsSpace x y hx hxne

/-- Stripping `x ++ y ++ "\n"` with `x` starting non-space and `y` ending
non-space gives `x ++ y` (this is the shape of a lock record and of a git
log output). -/
theorem pyStripL_append_newline (x y : List Char)
    (hx : x.dropWhile pyIsSpace = x) (hxne : x ≠ [])
    (hy : y.reverse.dropWhile pyIsSpace = y.reverse) (hyne : y ≠ []) :
    pyStripL ((x ++ y) ++ ['\n']) = x ++ y := by
  unfold pyStripL
  have hyne' : y.reverse ≠ [] := by
    intro hc
    exact hyne (by simpa using congrArg List.reverse hc)
  rw [show ((x ++ y) ++ ['\n']).reverse = '\n' :: (y.reverse ++ x.reverse) by simp]
  rw [List.dropWhile_cons, if_pos (by decide)]
  rw [dropWhile_append_stable pyIsSpace y.reverse x.reverse hy hyne']
  rw [show (y.reverse ++ x.reverse).reverse = x ++ y by simp]
  exact dropWhile_append_stable pyIsSpace x y hx hxne

/-- Stripping `x ++ "\n"` with `x` stable on both ends gives back `x`. -/
theorem pyStripL_snoc_newline (x : List Char)
    (hx : x.dropWhile pyIsSpace = x)
    (hxr : x.reverse.dropWhile pyIsSpace = x.reverse) (hne : x ≠ []) :
    pyStripL (x ++ ['\n']) = x := by
  unfold pyStripL
  rw [show (x ++ ['\n']).reverse = '\n' :: x.reverse by simp]
  rw [List.dropWhile_cons, if_pos (by decide)]
  rw [hxr, List.reverse_reverse]
  exact hx

/-- Stripping a value of the form `" v"` with `v` strip-stable and
non-empty gives `v` (how the parser recovers a `key: value` field). -/
theorem pyStripL_space_cons (l : List Char)
    (hleft : l.dropWhile pyIsSpace = l)
    (hright : l.reverse.dropWhile pyIsSpace = l.reverse) (hne : l ≠ []) :
    pyStripL (' ' :: l) = l := by
  unfold pyStripL
  have hne' : l.reverse ≠ [] := by
    intro hc
    exact hne (by simpa using congrArg List.reverse hc)
  rw [show (' ' :: l).reverse = l.reverse ++ [' '] by simp]
  rw [dropWhile_append_stable pyIsSpace l.reverse [' '] hright hne']
  rw [show (l.reverse ++ [' ']).reverse = ' ' :: l by simp]
  rw [List.dropWhile_cons, if_pos (by decide)]
  exact hleft

theorem splitOnChar_of_not_mem (c : Char) (l : List Char) (h : c ∉ l) :
    splitOnChar c l = [l] := by
  induction l with
  | nil => rfl
  | cons x xs ih =>
    have hx : x ≠ c := fun hc => h (by simp [hc])
    have hxs : c ∉ xs := fun hc => h (by simp [hc])
    simp only [splitOnChar, ih hxs]
    rw [if_neg hx]

theorem splitOnChar_ne_nil (c : Char) (l : List Char) : splitOnChar c l ≠ [] := by
  induction l with
  | nil => simp [splitOnChar]
  | cons x xs ih =>
    simp only [splitOnChar]
    cases hs : splitOnChar c xs with
    | nil => simp
    | cons h t =>
      by_cases hx : x = c
      · simp [hx]
      · simp [hx]

theorem splitOnChar_append (c : Char) (l₁ l₂ : List Char) (h : c ∉ l₁) :
    splitOnChar c (l₁ ++ c :: l₂) = l₁ :: splitOnChar c l₂ := by
  induction l₁ with
  | nil =>
    simp only [List.nil_append, splitOnChar]
    cases hs : splitOnChar c l₂ with
    | nil => exact absurd hs (splitOnChar_ne_nil c l₂)
    | cons hd tl => simp
  | cons x xs ih =>
    have hx : x ≠ c := fun hc => h (by simp [hc])
    have hxs : c ∉ xs := fun hc => h (by simp [hc])
    simp only [List.cons_append, splitOnChar, List.append_eq, ih hxs]
    rw [if_neg hx]

theorem breakAtChar_append (c : Char) (l₁ l₂ : List Char) (h : c ∉ l₁) :
    breakAtChar c (l₁ ++ c :: l₂) = some (l₁, l₂) := by
  induction l₁ with
  | nil => simp [breakAtChar]
  | cons x xs ih =>
    have hx : x ≠ c := fun hc => h (by simp [hc])
    have hxs : c ∉ xs := fun hc => h (by simp [hc])
    simp only [List.cons_append, breakAtChar, if_neg hx, List.append_eq, ih hxs]

theorem splitCharLimit_zero (c : Char) (l : List Char) : splitCharLimit c 0 l = [l] := by
  cases l <;> rfl

theorem splitCharLimit_of_not_mem (c : Char) (n : Nat) (l : List Char) (h : c ∉ l) :
    splitCharLimit c n l = [l] := by
  induction l generalizing n with
  | nil =>
    cases n with
    | zero => rfl
    | succ k => rfl
  | cons x xs ih =>
    cases n with
    | zero => rfl
    | succ k =>
      have hx : x ≠ c := fun hc => h (by simp [hc])
      have hxs : c ∉ xs := fun hc => h (by simp [hc])
      simp only [splitCharLimit, if_neg hx, List.append_eq, ih (k + 1) hxs]

theorem splitCharLimit_append (c : Char) (n : Nat) (l₁ l₂ : List Char) (h : c ∉ l₁) :
    splitCharLimit c (n + 1) (l₁ ++ c :: l₂) = l₁ :: splitCharLimit c n l₂ := by
  induction l₁ with
  | nil => simp [splitCharLimit]
  | cons x xs ih =>
    have hx : x ≠ c := fun hc => h (by simp [hc])
    have hxs : c ∉ xs := fun hc => h (by simp [hc])
    simp only [List.cons_append, splitCharLimit, if_neg hx, List.append_eq, ih hxs]

theorem string_ne_empty_data (s : String) (h : s ≠ "") : s.data ≠ [] := by
  intro hc
  apply h
  cases s with
  | mk l =>
    have hl : l = [] := hc
    rw [hl]

/-!
## C8: the task registry is a pure, error-degrading read
-/

/-- Parsing the standard lock-record content written by `lock_task`
recovers the agent and the task description. -/
theorem parseLockFile_std (name a t : String)
    (hna : '\n' ∉ a.data) (hnt : '\n' ∉ t.data)
    (hsa : pyStripL a.data = a.data) (hst : pyStripL t.data = t.data)
    (hane : a ≠ "") (htne : t ≠ "") :
    parseLockFile name (lockContentOf a t) =
      fmSet (fmSet [("file", name)] "agent" a) "task" t := by
  obtain ⟨hal, har⟩ := pyStripL_stable_parts a.data hsa
  obtain ⟨htl, htr⟩ := pyStripL_stable_parts t.data hst
  have hane' := string_ne_empty_data a hane
  have htne' := string_ne_empty_data t htne
  have htrne : t.data.reverse ≠ [] := by
    intro hc
    exact htne' (by simpa using congrArg List.reverse hc)
  have h1 : (lockContentOf a t).data =
      (("agent: ".data ++ a.data) ++ ('\n' :: ("task: ".data ++ t.data))) ++ ['\n'] := by
    have hlit1 : ("\ntask: " : String).data = '\n' :: ("task: " : String).data := rfl
    have hlit2 : ("\n" : String).data = ['\n'] := rfl
    simp [lockContentOf, String.data_append, hlit1, hlit2, List.append_assoc]
  have hX : ("agent: ".data ++ a.data).dropWhile pyIsSpace = "agent: ".data ++ a.data := by
    rw [show ("agent: " : String).data ++ a.data
        = 'a' :: (("gent: " : String).data ++ a.data) from rfl]
    exact dropWhile_cons_neg _ _ _ (by decide)
  have hXne : ("agent: " : String).data ++ a.data ≠ [] := by
    rw [show ("agent: " : String).data ++ a.data
        = 'a' :: (("gent: " : String).data ++ a.data) from rfl]
    simp
  have hyrevstable : ("task: ".data ++ t.data).reverse.dropWhile pyIsSpace
      = ("task: ".data ++ t.data).reverse := by
    rw [List.reverse_append]
    exact dropWhile_append_stable pyIsSpace t.data.reverse ("task: ".data).reverse htr htrne
  have hY : ('\n' :: ("task: ".data ++ t.data)).reverse.dropWhile pyIsSpace
      = ('\n' :: ("task: ".data ++ t.data)).reverse := by
    rw [show ('\n' :: ("task: ".data ++ t.data)).reverse
        = ("task: ".data ++ t.data).reverse ++ ['\n'] by simp]
    refine dropWhile_append_stable pyIsSpace _ _ hyrevstable ?_
    intro hc
    have : ("task: ".data ++ t.data) = [] := by simpa using congrArg List.reverse hc
    simp at this
  have hstrip : pyStripL (lockContentOf a t).data =
      ("agent: ".data ++ a.data) ++ ('\n' :: ("task: ".data ++ t.data)) := by
    rw [h1]
    exact pyStripL_append_newline _ _ hX hXne hY (by simp)
  have hnX : '\n' ∉ ("agent: " : String).data ++ a.data := by
    intro hc
    rcases List.mem_append.1 hc with hc | hc
    · revert hc
      decide
    · exact hna hc
  have hnY : '\n' ∉ ("task: " : String).data ++ t.data := by
    intro hc
    rcases List.mem_append.1 hc with hc | hc
    · revert hc
      decide
    · exact hnt hc
  have hlines : pySplitlines (pyStrip (lockContentOf a t)) =
      [⟨"agent: ".data ++ a.data⟩, ⟨"task: ".data ++ t.data⟩] := by
    unfold pySplitlines pyStrip
    rw [show (String.mk (pyStripL (lockContentOf a t).data)).data
        = pyStripL (lockContentOf a t).data from rfl]
    rw [hstrip]
    rw [splitOnChar_append '\n' ("agent: ".data ++ a.data) ("task: ".data ++ t.data) hnX]
    rw [splitOnChar_of_not_mem '\n' ("task: ".data ++ t.data) hnY]
    rfl
  have hk1 : pyStrip ⟨['a', 'g', 'e', 'n', 't']⟩ = "agent" := by decide
  have hk2 : pyStrip ⟨['t', 'a', 's', 'k']⟩ = "task" := by decide
  have hv1 : pyStrip ⟨' ' :: a.data⟩ = a := by
    unfold pyStrip
    rw [show (String.mk (' ' :: a.data)).data = ' ' :: a.data from rfl]
    rw [pyStripL_space_cons a.data hal har hane']
  have hv2 : pyStrip ⟨' ' :: t.data⟩ = t := by
    unfold pyStrip
    rw [show (String.mk (' ' :: t.data)).data = ' ' :: t.data from rfl]
    rw [pyStripL_space_cons t.data htl htr htne']
  unfold parseLockFile
  rw [hlines]
  simp only [List.foldl_cons, List.foldl_nil]
  rw [show (['a', 'g', 'e', 'n', 't', ':', ' '] : List Char) ++ a.data
      = ['a', 'g', 'e', 'n', 't'] ++ ':' :: (' ' :: a.data) from rfl]
  rw [breakAtChar_append ':' ['a', 'g', 'e', 'n', 't'] (' ' :: a.data) (by decide)]
  rw [show (['t', 'a', 's', 'k', ':', ' '] : List Char) ++ t.data
      = ['t', 'a', 's', 'k'] ++ ':' :: (' ' :: t.data) from rfl]
  rw [breakAtChar_append ':' ['t', 'a', 's', 'k'] (' ' :: t.data) (by decide)]
  dsimp only
  rw [hk1, hk2, hv1, hv2]

theorem any_filter_of_imp {α : Type} (l : List α) (p q : α → Bool)
    (himp : ∀ e, q e = true → p e = true) : (l.filter p).any q = l.any q := by
  induction l with
  | nil => rfl
  | cons e rest ih =>
    cases hp : p e with
    | true => simp [List.filter_cons, hp, ih]
    | false =>
      have hq : q e = false := by
        cases hqe : q e with
        | true => rw [himp e hqe] at hp; cases hp
        | false => rfl
      simp [List.filter_cons, hp, hq, ih]

theorem filter_filter_of_imp {α : Type} (l : List α) (p q : α → Bool)
    (himp : ∀ e, q e = true → p e = true) : (l.filter p).filter q = l.filter q := by
  induction l with
  | nil => rfl
  | cons e rest ih =>
    cases hp : p e with
    | true => simp [List.filter_cons, hp, ih]
    | false =>
      have hq : q e = false := by
        cases hqe : q e with
        | true => rw [himp e hqe] at hp; cases hp
        | false => rfl
      simp [List.filter_cons, hp, hq, ih]

theorem isLockEntry_imp_under_dir (e : Path × String) (h : isLockEntry e.1 = true) :
    ("current_tasks" ++ "/").data.isPrefixOf e.1.data = true := by
  simp only [isLockEntry, Bool.and_eq_true] at h
  exact h.1

/-- C8: `list_active_tasks` is a pure read of the lock-record directory
(dropping every entry outside it changes nothing); it returns `[]` when
the directory is missing and `[]` when the directory cannot be read
(`Path.glob` swallows the permission error); otherwise it returns one
parsed record per `*.lock` file, and for the standard record content the
record carries the file name, the owning agent and the task description. -/
theorem list_active_tasks_pure_read (wt : FileMap) (unreadableDirs : List String)
    (name a t : String)
    (hna : '\n' ∉ a.data) (hnt : '\n' ∉ t.data)
    (hsa : pyStripL a.data = a.data) (hst : pyStripL t.data = t.data)
    (hane : a ≠ "") (htne : t ≠ "") :
    (dirExistsIn wt "current_tasks" = false →
       list_active_tasks wt unreadableDirs = []) ∧
    ("current_tasks" ∈ unreadableDirs → list_active_tasks wt unreadableDirs = []) ∧
    (dirExistsIn wt "current_tasks" = true → "current_tasks" ∉ unreadableDirs →
       list_active_tasks wt unreadableDirs =
         (lockEntries wt).map (fun e => parseLockFile e.1 e.2)) ∧
    list_active_tasks wt unreadableDirs =
      list_active_tasks
        (wt.filter (fun e => ("current_tasks" ++ "/").data.isPrefixOf e.1.data))
        unreadableDirs ∧
    fmGet (parseLockFile name (lockContentOf a t)) "file" = some name ∧
    fmGet (parseLockFile name (lockContentOf a t)) "agent" = some a ∧
    fmGet (parseLockFile name (lockContentOf a t)) "task" = some t := by
  have hparse := parseLockFile_std name a t hna hnt hsa hst hane htne
  have hdirfilter : dirExistsIn
      (wt.filter (fun e => ("current_tasks" ++ "/").data.isPrefixOf e.1.data))
      "current_tasks" = dirExistsIn wt "current_tasks" := by
    unfold dirExistsIn
    exact any_filter_of_imp wt _ _ (fun e h => h)
  have hlockfilter : lockEntries
      (wt.filter (fun e => ("current_tasks" ++ "/").data.isPrefixOf e.1.data))
      = lockEntries wt := by
    unfold lockEntries
    rw [filter_filter_of_imp wt _ _ (fun e h => isLockEntry_imp_under_dir e h)]
  refine ⟨?_, ?_, ?_, ?_, ?_, ?_, ?_⟩
  · intro h
    unfold list_active_tasks
    rw [h]
    simp
  · intro h
    unfold list_active_tasks
    cases hd : dirExistsIn wt "current_tasks" with
    | false => simp
    | true => simp [h]
  · intro hd hu
    unfold list_active_tasks
    rw [hd]
    simp [hu]
  · unfold list_active_tasks
    rw [hdirfilter, hlockfilter]
  · rw [hparse]
    rw [fmGet_set_ne _ "task" "file" t (by decide)]
    rw [fmGet_set_ne _ "agent" "file" a (by decide)]
    rfl
  · rw [hparse]
    rw [fmGet_set_ne _ "task" "agent" t (by decide)]
    exact fmGet_set_self _ "agent" a
  · rw [hparse]
    exact fmGet_set_self _ "task" t

/-- Witness for C8: one standard lock record in the tree, plus the
missing-directory and unreadable-directory cases, and a hidden lock file
(the task name starts with a dot, so the sanitized key is a dotfile):
pathlib's glob matches it, so its record is enumerated and parsed too. -/
theorem list_active_tasks_pure_read_witness :
    ('\n' ∉ ("a1" : String).data ∧ '\n' ∉ ("fix bug" : String).data ∧
     pyStripL ("a1" : String).data = ("a1" : String).data ∧
     pyStripL ("fix bug" : String).data = ("fix bug" : String).data ∧
     ("a1" : String) ≠ "" ∧ ("fix bug" : String) ≠ "") ∧
    (dirExistsIn [("current_tasks/fix_bug.lock", "agent: a1\ntask: fix bug\n")]
        "current_tasks" = true →
     "current_tasks" ∉ (["other"] : List String) →
     list_active_tasks [("current_tasks/fix_bug.lock", "agent: a1\ntask: fix bug\n")]
         ["other"] =
       (lockEntries [("current_tasks/fix_bug.lock", "agent: a1\ntask: fix bug\n")]).map
         (fun e => parseLockFile e.1 e.2)) ∧
    ("current_tasks" ∈ (["current_tasks"] : List String) →
     list_active_tasks [("current_tasks/fix_bug.lock", "agent: a1\ntask: fix bug\n")]
         ["current_tasks"] = []) ∧
    fmGet (parseLockFile "fix_bug.lock" (lockContentOf "a1" "fix bug")) "agent" = some "a1" ∧
    lockEntries [("current_tasks/.profile_cleanup.lock",
        "agent: a2\ntask: .profile cleanup\n")]
      = [(".profile_cleanup.lock", "agent: a2\ntask: .profile cleanup\n")] ∧
    fmGet (parseLockFile ".profile_cleanup.lock" (lockContentOf "a2" ".profile cleanup"))
        "task" = some ".profile cleanup" := by
  refine ⟨by decide, ?_, ?_, ?_, by decide, ?_⟩
  · exact (list_active_tasks_pure_read
      [("current_tasks/fix_bug.lock", "agent: a1\ntask: fix bug\n")] ["other"]
      "fix_bug.lock" "a1" "fix bug" (by decide) (by decide) (by decide) (by decide)
      (by decide) (by decide)).2.2.1
  · exact (list_active_tasks_pure_read
      [("current_tasks/fix_bug.lock", "agent: a1\ntask: fix bug\n")] ["current_tasks"]
      "fix_bug.lock" "a1" "fix bug" (by decide) (by decide) (by decide) (by decide)
      (by decide) (by decide)).2.1
  · exact (list_active_tasks_pure_read
      [("current_tasks/fix_bug.lock", "agent: a1\ntask: fix bug\n")] []
      "fix_bug.lock" "a1" "fix bug" (by decide) (by decide) (by decide) (by decide)
      (by decide) (by decide)).2.2.2.2.2.1
  · exact (list_active_tasks_pure_read
      [("current_tasks/.profile_cleanup.lock", "agent: a2\ntask: .profile cleanup\n")] []
      ".profile_cleanup.lock" "a2" ".profile cleanup" (by decide) (by decide) (by decide)
      (by decide) (by decide) (by decide)).2.2.2.2.2.2

/-!
## C9: the history reader
-/

/-- The stripped log output: lines joined by single newlines, no trailing
newline. -/
def sepJoinNL : List String → List Char
  | [] => []
  | [l] => l.data
  | l :: ls => l.data ++ '\n' :: sepJoinNL ls

theorem sepJoinNL_cons₂ (l l' : String) (ls : List String) :
    sepJoinNL (l :: l' :: ls) = l.data ++ '\n' :: sepJoinNL (l' :: ls) := rfl

theorem joinLinesNL_eq_sepJoin (ls : List String) (h : ls ≠ []) :
    joinLinesNL ls = sepJoinNL ls ++ ['\n'] := by
  induction ls with
  | nil => exact absurd rfl h
  | cons l ls' ih =>
    cases ls' with
    | nil => simp [joinLinesNL, sepJoinNL]
    | cons l' ls'' =>
      simp only [joinLinesNL, List.foldr_cons] at ih ⊢
      rw [ih (by simp)]
      rw [sepJoinNL_cons₂]
      simp

theorem sepJoinNL_ne_nil (l : String) (ls : List String) (h : l.data ≠ []) :
    sepJoinNL (l :: ls) ≠ [] := by
  cases ls with
  | nil => exact h
  | cons l' ls' =>
    rw [sepJoinNL_cons₂]
    intro hc
    rcases List.append_eq_nil.1 hc with ⟨h1, h2⟩
    exact h h1

theorem sepJoinNL_head_stable (ls : List String)
    (h : ∀ l ∈ ls, l.data ≠ [] ∧ l.data.dropWhile pyIsSpace = l.data) :
    (sepJoinNL ls).dropWhile pyIsSpace = sepJoinNL ls := by
  cases ls with
  | nil => rfl
  | cons l ls' =>
    have hl := h l (by simp)
    cases ls' with
    | nil => exact hl.2
    | cons l' ls'' =>
      rw [sepJoinNL_cons₂]
      exact dropWhile_append_stable pyIsSpace l.data _ hl.2 hl.1

theorem sepJoinNL_rev_stable (ls : List String)
    (h : ∀ l ∈ ls, l.data ≠ [] ∧ l.data.reverse.dropWhile pyIsSpace = l.data.reverse) :
    (sepJoinNL ls).reverse.dropWhile pyIsSpace = (sepJoinNL ls).reverse := by
  induction ls with
  | nil => rfl
  | cons l ls' ih =>
    cases ls' with
    | nil => exact (h l (by simp)).2
    | cons l' ls'' =>
      rw [sepJoinNL_cons₂]
      rw [show (l.data ++ '\n' :: sepJoinNL (l' :: ls'')).reverse
          = (sepJoinNL (l' :: ls'')).reverse ++ '\n' :: l.data.reverse by simp]
      have hrec := ih (fun x hx => h x (List.mem_cons_of_mem l hx))
      have hne : (sepJoinNL (l' :: ls'')).reverse ≠ [] := by
        intro hc
        exact sepJoinNL_ne_nil l' ls'' (h l' (by simp)).1
          (by simpa using congrArg List.reverse hc)
      exact dropWhile_append_stable pyIsSpace _ _ hrec hne

theorem splitOnChar_sepJoinNL (l : String) (ls : List String)
    (h : ∀ x ∈ l :: ls, '\n' ∉ x.data) :
    splitOnChar '\n' (sepJoinNL (l :: ls)) = (l :: ls).map String.data := by
  induction ls generalizing l with
  | nil => simpa [sepJoinNL] using splitOnChar_of_not_mem '\n' l.data (h l (by simp))
  | cons l' ls' ih =>
    rw [sepJoinNL_cons₂]
    rw [splitOnChar_append '\n' l.data _ (h l (by simp))]
    rw [ih l' (fun x hx => h x (List.mem_cons_of_mem l hx))]
    simp

theorem gitLogLine_data (f g e : Commit → String) (c : Commit) :
    (gitLogLine f g e c).data
      = (f c).data ++ '|' :: ((g c).data ++ '|' :: ((e c).data ++ '|' :: c.msg.data)) := by
  have hp : ("|" : String).data = ['|'] := rfl
  simp [gitLogLine, String.data_append, hp, List.append_assoc]

theorem gitLogLine_ne_nil (f g e : Commit → String) (c : Commit) :
    (gitLogLine f g e c).data ≠ [] := by
  rw [gitLogLine_data]
  cases (f c).data <;> simp

theorem gitLogLine_head_stable (f g e : Commit → String) (c : Commit)
    (hf : ∀ ch ∈ (f c).data, pyIsSpace ch = false) :
    (gitLogLine f g e c).data.dropWhile pyIsSpace = (gitLogLine f g e c).data := by
  rw [gitLogLine_data]
  cases hfc : (f c).data with
  | nil =>
    simp only [List.nil_append]
    exact dropWhile_cons_neg _ _ _ (by decide)
  | cons ch rest =>
    rw [List.cons_append]
    exact dropWhile_cons_neg _ _ _ (hf ch (by rw [hfc]; simp))

theorem gitLogLine_rev_stable (f g e : Commit → String) (c : Commit)
    (hm : c.msg.data.reverse.dropWhile pyIsSpace = c.msg.data.reverse) :
    (gitLogLine f g e c).data.reverse.dropWhile pyIsSpace
      = (gitLogLine f g e c).data.reverse := by
  rw [gitLogLine_data]
  rw [show ((f c).data ++ '|' :: ((g c).data ++ '|' :: ((e c).data ++ '|' :: c.msg.data))).reverse
      = c.msg.data.reverse ++ '|' :: ((e c).data.reverse ++ '|' ::
        ((g c).data.reverse ++ '|' :: (f c).data.reverse)) by simp]
  cases hmc : c.msg.data.reverse with
  | nil =>
    simp only [List.nil_append]
    exact dropWhile_cons_neg _ _ _ (by decide)
  | cons ch rest =>
    rw [List.cons_append]
    rw [hmc] at hm
    exact dropWhile_cons_neg _ _ _ (not_head_of_dropWhile_cons_eq pyIsSpace ch rest hm)

theorem gitLogLine_no_newline (f g e : Commit → String) (c : Commit)
    (hf : ∀ ch ∈ (f c).data, ch ≠ '\n') (hg : ∀ ch ∈ (g c).data, ch ≠ '\n')
    (he : ∀ ch ∈ (e c).data, ch ≠ '\n') (hm : ∀ ch ∈ c.msg.data, ch ≠ '\n') :
    '\n' ∉ (gitLogLine f g e c).data := by
  rw [gitLogLine_data]
  intro hmem
  simp only [List.mem_append, List.mem_cons] at hmem
  rcases hmem with hc | hc | hc | hc | hc | hc | hc
  · exact hf '\n' hc rfl
  · cases hc
  · exact hg '\n' hc rfl
  · cases hc
  · exact he '\n' hc rfl
  · cases hc
  · exact hm '\n' hc rfl

theorem splitLogLine (f g e : Commit → String) (c : Commit)
    (hf : ∀ ch ∈ (f c).data, ch ≠ '|') (hg : ∀ ch ∈ (g c).data, ch ≠ '|')
    (he : ∀ ch ∈ (e c).data, ch ≠ '|') :
    splitCharLimit '|' 3 (gitLogLine f g e c).data
      = [(f c).data, (g c).data, (e c).data, c.msg.data] := by
  rw [gitLogLine_data]
  rw [show (3 : Nat) = 2 + 1 from rfl]
  rw [splitCharLimit_append '|' 2 _ _ (fun hc => hf '|' hc rfl)]
  rw [show (2 : Nat) = 1 + 1 from rfl]
  rw [splitCharLimit_append '|' 1 _ _ (fun hc => hg '|' hc rfl)]
  rw [show (1 : Nat) = 0 + 1 from rfl]
  rw [splitCharLimit_append '|' 0 _ _ (fun hc => he '|' hc rfl)]
  rw [splitCharLimit_zero]

theorem foldr_parseLogLine (f g e : Commit → String) (cs : List Commit)
    (hsplit : ∀ c ∈ cs, splitCharLimit '|' 3 (gitLogLine f g e c).data
       = [(f c).data, (g c).data, (e c).data, c.msg.data]) :
    (cs.map (gitLogLine f g e)).foldr parseLogLine []
      = cs.map (fun c => LogEntry.mk ⟨(f c).data.take 8⟩ (g c) (e c) c.msg) := by
  induction cs with
  | nil => rfl
  | cons c cs' ih =>
    simp only [List.map_cons, List.foldr_cons]
    rw [ih (fun x hx => hsplit x (List.mem_cons_of_mem c hx))]
    unfold parseLogLine
    rw [hsplit c (by simp)]

/-- C9: `_git_log` returns the commit entries most-recent-first (the
upstream history is newest-first push order), truncated to at most `count`
entries — each entry carrying the 8-character hash, the author, the
relative age and the subject — and a missing or unreadable repository
yields `[]` rather than an error; `SwarmMonitor.recent_commits` is
exactly this read of the upstream. -/
theorem git_log_history_reader (hashOf authorOf ageOf : Commit → String)
    (hist : List Commit) (count : Nat)
    (hh : ∀ c ∈ hist,
      (∀ ch ∈ (hashOf c).data, pyIsSpace ch = false ∧ ch ≠ '|') ∧
      (∀ ch ∈ (authorOf c).data, ch ≠ '|' ∧ ch ≠ '\n') ∧
      (∀ ch ∈ (ageOf c).data, ch ≠ '|' ∧ ch ≠ '\n') ∧
      (∀ ch ∈ c.msg.data, ch ≠ '\n') ∧
      c.msg.data.reverse.dropWhile pyIsSpace = c.msg.data.reverse) :
    git_log hashOf authorOf ageOf (some hist) count
      = (hist.take count).map (fun c =>
          LogEntry.mk ⟨(hashOf c).data.take 8⟩ (authorOf c) (ageOf c) c.msg) ∧
    (git_log hashOf authorOf ageOf (some hist) count).length ≤ count ∧
    git_log hashOf authorOf ageOf none count = [] ∧
    recent_commits hashOf authorOf ageOf (some hist) count
      = git_log hashOf authorOf ageOf (some hist) count := by
  have htakemem : ∀ c ∈ hist.take count, c ∈ hist := fun c hc => List.take_subset count hist hc
  have hmain : git_log hashOf authorOf ageOf (some hist) count
      = (hist.take count).map (fun c =>
          LogEntry.mk ⟨(hashOf c).data.take 8⟩ (authorOf c) (ageOf c) c.msg) := by
    cases hE : hist with
    | nil => simp [git_log]
    | cons c0 rest =>
      rw [← hE]
      have hne : hist.isEmpty = false := by rw [hE]; rfl
      unfold git_log
      simp only [hne, Bool.false_eq_true, if_false]
      cases hcs : hist.take count with
      | nil =>
        unfold gitLogStdout
        rw [hcs]
        rfl
      | cons d0 ds0 =>
        rw [← hcs]
        have hlprops : ∀ l ∈ (hist.take count).map (gitLogLine hashOf authorOf ageOf),
            l.data ≠ [] ∧ l.data.dropWhile pyIsSpace = l.data ∧
            l.data.reverse.dropWhile pyIsSpace = l.data.reverse ∧ '\n' ∉ l.data := by
          intro l hl
          obtain ⟨c, hc, rfl⟩ := List.mem_map.1 hl
          obtain ⟨hf, hg, he, hm, hmr⟩ := hh c (htakemem c hc)
          refine ⟨gitLogLine_ne_nil _ _ _ _, ?_, ?_, ?_⟩
          · exact gitLogLine_head_stable _ _ _ _ (fun ch hch => (hf ch hch).1)
          · exact gitLogLine_rev_stable _ _ _ _ hmr
          · refine gitLogLine_no_newline _ _ _ _ ?_ ?_ ?_ hm
            · intro ch hch hcc
              have := (hf ch hch).1
              rw [hcc] at this
              exact absurd this (by decide)
            · exact fun ch hch => (hg ch hch).2
            · exact fun ch hch => (he ch hch).2
        have hlinesne : (hist.take count).map (gitLogLine hashOf authorOf ageOf) ≠ [] := by
          rw [hcs]
          simp
        have hjoin : joinLinesNL ((hist.take count).map (gitLogLine hashOf authorOf ageOf))
            = sepJoinNL ((hist.take count).map (gitLogLine hashOf authorOf ageOf)) ++ ['\n'] :=
          joinLinesNL_eq_sepJoin _ hlinesne
        have hsepne : sepJoinNL ((hist.take count).map (gitLogLine hashOf authorOf ageOf))
            ≠ [] := by
          rw [hcs, List.map_cons]
          exact sepJoinNL_ne_nil _ _
            (hlprops _ (by rw [hcs, List.map_cons]; simp)).1
        have hstrip : pyStripL
            (joinLinesNL ((hist.take count).map (gitLogLine hashOf authorOf ageOf)))
            = sepJoinNL ((hist.take count).map (gitLogLine hashOf authorOf ageOf)) := by
          rw [hjoin]
          exact pyStripL_snoc_newline _
            (sepJoinNL_head_stable _ (fun l hl => ⟨(hlprops l hl).1, (hlprops l hl).2.1⟩))
            (sepJoinNL_rev_stable _ (fun l hl => ⟨(hlprops l hl).1, (hlprops l hl).2.2.1⟩))
            hsepne
        have hsplitlines : pySplitlines
            ⟨sepJoinNL ((hist.take count).map (gitLogLine hashOf authorOf ageOf))⟩
            = (hist.take count).map (gitLogLine hashOf authorOf ageOf) := by
          unfold pySplitlines
          rw [show (String.mk (sepJoinNL ((hist.take count).map
              (gitLogLine hashOf authorOf ageOf)))).data
              = sepJoinNL ((hist.take count).map (gitLogLine hashOf authorOf ageOf)) from rfl]
          rw [hcs, List.map_cons]
          rw [splitOnChar_sepJoinNL _ _ (by
            intro x hx
            rw [← List.map_cons, ← hcs] at hx
            exact (hlprops x hx).2.2.2)]
          rw [← List.map_cons, ← hcs, List.map_map]
          rw [show ((fun l : List Char => (⟨l⟩ : String)) ∘ String.data) = id from
            funext fun l => rfl]
          exact List.map_id _
        unfold parseGitLog gitLogStdout pyStrip
        rw [show (String.mk (joinLinesNL ((hist.take count).map
            (gitLogLine hashOf authorOf ageOf)))).data
            = joinLinesNL ((hist.take count).map (gitLogLine hashOf authorOf ageOf)) from rfl]
        rw [hstrip, hsplitlines]
        refine foldr_parseLogLine hashOf authorOf ageOf (hist.take count) ?_
        intro c hc
        obtain ⟨hf, hg, he, hm, hmr⟩ := hh c (htakemem c hc)
        exact splitLogLine hashOf authorOf ageOf c
          (fun ch hch => (hf ch hch).2) (fun ch hch => (hg ch hch).1)
          (fun ch hch => (he ch hch).1)
  refine ⟨hmain, ?_, rfl, rfl⟩
  rw [hmain]
  rw [List.length_map, List.length_take]
  exact Nat.min_le_left _ _

/-- Witness for C9: a two-commit history read with `count = 1` and with a
missing repository. -/
theorem git_log_history_reader_witness :
    git_log (fun c => "0123456789abcdef" ++ c.msg) (fun _ => "au") (fun _ => "2 min ago")
        (some [⟨"c1", []⟩, ⟨"c0", []⟩]) 1
      = [LogEntry.mk "01234567" "au" "2 min ago" "c1"] ∧
    git_log (fun c => "0123456789abcdef" ++ c.msg) (fun _ => "au") (fun _ => "2 min ago")
        none 1 = [] := by
  have h := git_log_history_reader (fun c => "0123456789abcdef" ++ c.msg)
    (fun _ => "au") (fun _ => "2 min ago") [⟨"c1", []⟩, ⟨"c0", []⟩] 1
    (by decide)
  refine ⟨?_, h.2.2.1⟩
  rw [h.1]
  decide

/-!
## C1: the acquire race — mutual exclusion and loser cleanup
-/

theorem lockFailCleanup_eq (ws : Workspace) (task : String) :
    lockFailCleanup ws task = ⟨tipTree ws.originRef, ws.originRef, ws.originRef⟩ := rfl

end CodingSwarm
